import Mathlib

/-!
# Verification of the gifmaze encoding core

Shallow embedding of the gifmaze repository (files `encoder.py`, `surface.py`,
`maze.py`, `animation.py`) and proofs about it.

Conventions:
* Python `bytearray`s are `List Nat` whose elements are < 256.
* Python functions that can raise are embedded as `Option`/`Except` valued
  functions returning `none`/`.error` on the raising paths.
* Python `dict`s keyed by tuples of symbols are association lists
  `List (List σ × Nat)`; insertion appends, lookup scans (Python dict keys are
  unique here because the code only inserts keys that are absent).
-/

/-! ## DataBlock (encoder.py lines 26-75) -/

/-- State of `DataBlock`: the byte buffer `_bitstream` and the bit counter
`_nbits` (encoder.py lines 33-35). -/
structure DataBlock where
  bitstream : List Nat
  nbits : Nat
  deriving Repr, DecidableEq

/-- `DataBlock.__init__`: empty buffer, zero bits. -/
def DataBlock.init : DataBlock := ⟨[], 0⟩

/-- `bs[-1] |= m` on a byte buffer (encoder.py line 53). -/
def orLastByte (bs : List Nat) (m : Nat) : List Nat :=
  bs.dropLast ++ [Nat.lor (bs.getLastD 0) m]

/-- One iteration of the loop body of `encode_bits` (encoder.py lines 49-54):
write a single bit at position `nbits`, appending a fresh zero byte first if
the buffer is exactly full. -/
def DataBlock.writeBit (st : DataBlock) (b : Bool) : DataBlock :=
  let bs := if st.bitstream.length * 8 = st.nbits then st.bitstream ++ [0] else st.bitstream
  let bs2 := if b then orLastByte bs (1 <<< (st.nbits % 8)) else bs
  ⟨bs2, st.nbits + 1⟩

/-- Number of binary digits of `n` (0 for `n = 0`), computed with a fuel
argument so that the kernel can evaluate it; any `fuel ≥ n` gives the true
digit count because a positive number has at most as many binary digits as
its value. -/
def bitLenF : Nat → Nat → Nat
  | 0, _ => 0
  | fuel + 1, n => if n = 0 then 0 else bitLenF fuel (n / 2) + 1

/-- Length of the Python string `bin(num)[2:]` (one digit for `0`, otherwise
the number of binary digits of `num`). -/
def pyBitLen (num : Nat) : Nat := max 1 (bitLenF num num)

/-- The sequence of bits written by `encode_bits(num, size)` in the order the
loop of encoder.py lines 49-54 visits them: `reversed(bin(num)[2:].zfill(size))`,
i.e. the low-order bits of `num` least-significant first, padded with `false`
up to `size` (and NOT truncated when `num` needs more than `size` digits,
exactly as in the source). -/
def pyEncodedBits (num size : Nat) : List Bool :=
  (List.range (max size (pyBitLen num))).map num.testBit

/-- `DataBlock.encode_bits` (encoder.py lines 37-54). -/
def DataBlock.encode_bits (st : DataBlock) (num size : Nat) : DataBlock :=
  (pyEncodedBits num size).foldl DataBlock.writeBit st

/-- The sub-block chunking performed by `dump_bytes` (encoder.py lines 64-71):
blocks of 255 bytes, each preceded by its length byte, final partial block
preceded by its length; empty input produces no block at all. The fuel
argument makes the recursion structural (kernel-computable); `fuel ≥ bs.length`
suffices since each round consumes 255 bytes. -/
def dumpChunksF : Nat → List Nat → List Nat
  | 0, _ => []
  | fuel + 1, bs =>
    if 255 < bs.length then
      255 :: (bs.take 255 ++ dumpChunksF fuel (bs.drop 255))
    else if 0 < bs.length then
      bs.length :: bs
    else []

def dumpChunks (bs : List Nat) : List Nat := dumpChunksF bs.length bs

/-- `DataBlock.dump_bytes` (encoder.py lines 56-75); the reset of the internal
state to `DataBlock.init` is implicit (callers thread fresh states). -/
def DataBlock.dump_bytes (st : DataBlock) : List Nat :=
  dumpChunks st.bitstream

/-! ## Claim-side readers for the bitstream

These definitions follow the words of the spec (§4.1, §8 "Bit packing
correctness"): read the dumped bytes by stripping the length-prefix bytes,
expand bytes to bits least-significant-bit first, and take `width` bits per
code. -/

/-- Bit `i` of a byte buffer, LSB-first within each byte. -/
def byteBit (bs : List Nat) (i : Nat) : Bool :=
  (bs.getD (i / 8) 0).testBit (i % 8)

/-- The first `nbits` bits of the buffer: the abstract value of a `DataBlock`. -/
def bitsView (st : DataBlock) : List Bool :=
  (List.range st.nbits).map (byteBit st.bitstream)

/-- All bits of a byte sequence, LSB-first within each byte. -/
def bytesToBits (bs : List Nat) : List Bool :=
  (List.range (8 * bs.length)).map (byteBit bs)

/-- The `width` low-order bits of `code`, least significant first
(claim C2's description of what one `encode_bits` call should append). -/
def lsbBits (code width : Nat) : List Bool :=
  (List.range width).map code.testBit

/-- Read one code of the given width from a bit sequence, LSB first. -/
def readCode : Nat → List Bool → Nat
  | 0, _ => 0
  | _ + 1, [] => 0
  | w + 1, b :: rest => (if b then 1 else 0) + 2 * readCode w rest

/-- Read a sequence of codes of the given widths. -/
def readCodes : List Nat → List Bool → List Nat
  | [], _ => []
  | w :: ws, bits => readCode w bits :: readCodes ws (bits.drop w)

/-- Strip the length-prefix bytes from a sub-blocked stream and concatenate
the payloads (the claim-side inverse of `dump_bytes`). -/
def deblock (bs : List Nat) : List Nat :=
  match bs with
  | [] => []
  | n :: rest => rest.take n ++ deblock (rest.drop n)
  termination_by bs.length
  decreasing_by
    simp only [List.length_drop, List.length_cons]
    omega

/-! ## Correctness of the bit writer (claim C2) -/

/-- Well-formedness of a `DataBlock` state: the buffer holds exactly the bytes
needed for `nbits` bits, all bits at positions at or beyond `nbits` are zero,
and every buffer entry is a byte. Established by `__init__` and preserved by
`encode_bits`. -/
def DataBlock.WF (st : DataBlock) : Prop :=
  st.bitstream.length = (st.nbits + 7) / 8 ∧
  (∀ i, st.nbits ≤ i → byteBit st.bitstream i = false) ∧
  (∀ b ∈ st.bitstream, b < 256)

theorem DataBlock.init_WF : DataBlock.init.WF := by
  refine ⟨rfl, fun i _ => ?_, by simp [DataBlock.init]⟩
  simp [byteBit, DataBlock.init, List.getD]

theorem byteBit_append_lt (bs : List Nat) (v i : Nat) (h : i < 8 * bs.length) :
    byteBit (bs ++ [v]) i = byteBit bs i := by
  unfold byteBit
  rw [List.getD_append]
  omega

theorem byteBit_append_eq (bs : List Nat) (v i : Nat) (h : i / 8 = bs.length) :
    byteBit (bs ++ [v]) i = v.testBit (i % 8) := by
  unfold byteBit
  rw [List.getD_append_right _ _ _ _ (by omega), h]
  simp

theorem byteBit_oob (bs : List Nat) (i : Nat) (h : bs.length ≤ i / 8) :
    byteBit bs i = false := by
  unfold byteBit
  rw [List.getD_eq_default _ _ h]
  simp

theorem orLastByte_concat (dl : List Nat) (x m : Nat) :
    orLastByte (dl ++ [x]) m = dl ++ [Nat.lor x m] := by
  unfold orLastByte
  simp [List.dropLast_concat]

/-- One written bit extends the abstract bit sequence by exactly that bit and
preserves well-formedness. -/
theorem writeBit_spec (st : DataBlock) (b : Bool) (h : st.WF) :
    (st.writeBit b).WF ∧ (st.writeBit b).nbits = st.nbits + 1 ∧
      bitsView (st.writeBit b) = bitsView st ++ [b] := by
  obtain ⟨hlen, hhigh, hbyte⟩ := h
  obtain ⟨bs, n⟩ := st
  simp only at hlen hhigh hbyte
  by_cases halign : bs.length * 8 = n
  · -- byte-aligned: a fresh byte is appended, the bit lands at its position 0
    have hbs2 : (DataBlock.writeBit ⟨bs, n⟩ b).bitstream = bs ++ [if b then 1 else 0] := by
      unfold DataBlock.writeBit
      simp only [halign, if_pos rfl]
      cases b
      · simp
      · have : n % 8 = 0 := by omega
        simp only [this, Nat.shiftLeft_eq, pow_zero, one_mul, if_pos rfl,
          eq_self_iff_true, if_true]
        have h01 : Nat.lor 0 1 = 1 := by decide
        rw [orLastByte_concat, h01]
    have hb1 : (DataBlock.writeBit ⟨bs, n⟩ b).nbits = n + 1 := rfl
    refine ⟨⟨?_, ?_, ?_⟩, hb1, ?_⟩
    · rw [hbs2]; simp only [List.length_append, List.length_singleton, hb1]; omega
    · intro i hi
      rw [hb1] at hi
      rw [hbs2]
      rcases Nat.lt_or_ge (i / 8) (bs ++ [if b then 1 else 0]).length with hcase | hcase
      · simp only [List.length_append, List.length_singleton] at hcase
        rcases Nat.lt_or_ge (i / 8) bs.length with hc2 | hc2
        · rw [byteBit_append_lt bs _ i (by omega)]
          exact hhigh i (by omega)
        · have hieq : i / 8 = bs.length := by omega
          rw [byteBit_append_eq bs _ i hieq]
          have hmod : 1 ≤ i % 8 := by omega
          cases b
          · simp
          · have hone : (if (true : Bool) = true then (1 : Nat) else 0) = 2 ^ 0 := by
              norm_num
            rw [hone, Nat.testBit_two_pow]
            simp only [decide_eq_false_iff_not]
            omega
      · exact byteBit_oob _ i (by simpa using hcase)
    · intro x hx
      rw [hbs2] at hx
      rcases List.mem_append.mp hx with hx | hx
      · exact hbyte x hx
      · simp only [List.mem_singleton] at hx
        subst hx
        cases b <;> simp
    · unfold bitsView
      rw [hb1, hbs2]
      rw [List.range_succ, List.map_append]
      congr 1
      · exact List.map_congr_left fun i hi => by
          rw [byteBit_append_lt bs _ i (by simp at hi; omega)]
      · simp only [List.map_cons, List.map_nil, List.cons.injEq, and_true]
        rw [byteBit_append_eq bs _ n (by omega)]
        have : n % 8 = 0 := by omega
        cases b <;> simp [this]
  · -- unaligned: the bit is or-ed into the last byte
    have hlpos : 0 < bs.length := by omega
    obtain ⟨dl, x, hdx⟩ : ∃ dl x, bs = dl ++ [x] := by
      rcases List.eq_nil_or_concat bs with hnil | ⟨dl, x, hdx⟩
      · rw [hnil] at hlpos; exact absurd hlpos (by simp)
      · exact ⟨dl, x, by simpa [List.concat_eq_append] using hdx⟩
    have hnmod : n % 8 ≠ 0 := by omega
    have hq : n / 8 = bs.length - 1 := by omega
    have hbs2 : (DataBlock.writeBit ⟨bs, n⟩ b).bitstream
        = if b then dl ++ [Nat.lor x (1 <<< (n % 8))] else bs := by
      unfold DataBlock.writeBit
      simp only [if_neg halign]
      cases b
      · simp
      · simp [hdx, orLastByte_concat]
    have hb1 : (DataBlock.writeBit ⟨bs, n⟩ b).nbits = n + 1 := rfl
    have hdl : dl.length = bs.length - 1 := by
      rw [hdx]; simp
    -- how a bit of the new buffer reads off the old one
    have hread : ∀ i, byteBit (DataBlock.writeBit ⟨bs, n⟩ b).bitstream i =
        if i / 8 = bs.length - 1 then (byteBit bs i || (b && decide (i % 8 = n % 8)))
        else byteBit bs i := by
      intro i
      cases b
      · rw [hbs2, if_neg (by decide)]
        split <;> simp
      · rw [hbs2, if_pos rfl]
        simp only [Bool.true_and]
        rcases Nat.lt_or_ge (i / 8) dl.length with hc | hc
        · rw [if_neg (by omega)]
          rw [hdx, byteBit_append_lt dl _ i (by omega), byteBit_append_lt dl _ i (by omega)]
        · rcases Nat.lt_or_ge (i / 8) (dl.length + 1) with hc2 | hc2
          · have hieq : i / 8 = dl.length := by omega
            rw [if_pos (by omega)]
            rw [byteBit_append_eq dl _ i hieq, hdx, byteBit_append_eq dl _ i hieq]
            rw [Nat.shiftLeft_eq, one_mul,
              show Nat.lor x (2 ^ (n % 8)) = x ||| 2 ^ (n % 8) from rfl,
              Nat.testBit_lor, Nat.testBit_two_pow]
            simp [eq_comm]
          · rw [if_neg (by omega)]
            rw [byteBit_oob _ i (by simp; omega), hdx, byteBit_oob _ i (by simp [hdl]; omega)]
    refine ⟨⟨?_, ?_, ?_⟩, hb1, ?_⟩
    · rw [hbs2, hb1]
      cases b <;> simp [hdx] <;> omega
    · intro i hi
      rw [hb1] at hi
      rw [hread i]
      have hbsf : byteBit bs i = false := hhigh i (by omega)
      split
      · rw [hbsf]
        have : i % 8 ≠ n % 8 := by omega
        simp [this]
      · exact hbsf
    · intro y hy
      rw [hbs2] at hy
      cases b
      · exact hbyte y (by simpa using hy)
      · rw [if_pos rfl] at hy
        rcases List.mem_append.mp hy with hy | hy
        · exact hbyte y (by rw [hdx]; exact List.mem_append_left _ hy)
        · rw [List.mem_singleton] at hy
          subst hy
          have hx256 : x < 256 := hbyte x (by rw [hdx]; simp)
          have hm256 : 1 <<< (n % 8) < 256 := by
            rw [Nat.shiftLeft_eq, one_mul]
            calc 2 ^ (n % 8) ≤ 2 ^ 7 := Nat.pow_le_pow_right (by norm_num) (by omega)
            _ < 256 := by norm_num
          exact Nat.bitwise_lt_two_pow (n := 8) hx256 hm256
    · unfold bitsView
      simp only [hb1]
      rw [List.range_succ, List.map_append]
      congr 1
      · refine List.map_congr_left fun i hi => ?_
        rw [hread i]
        simp only [List.mem_range] at hi
        split
        · next hq2 =>
          have hne : decide (i % 8 = n % 8) = false := by
            simp only [decide_eq_false_iff_not]
            omega
          rw [hne]
          simp
        · rfl
      · simp only [List.map_cons, List.map_nil, List.cons.injEq, and_true]
        rw [hread n]
        rw [if_pos (by omega)]
        rw [hhigh n (le_refl n)]
        simp

/-- Folding a list of bits through `writeBit` appends them to the view. -/
theorem foldl_writeBit_spec (bits : List Bool) (st : DataBlock) (h : st.WF) :
    (bits.foldl DataBlock.writeBit st).WF ∧
      (bits.foldl DataBlock.writeBit st).nbits = st.nbits + bits.length ∧
      bitsView (bits.foldl DataBlock.writeBit st) = bitsView st ++ bits := by
  induction bits generalizing st with
  | nil => simpa using h
  | cons b rest ih =>
    obtain ⟨hwf, hn, hv⟩ := writeBit_spec st b h
    obtain ⟨ihwf, ihn, ihv⟩ := ih (st.writeBit b) hwf
    refine ⟨ihwf, ?_, ?_⟩
    · simp only [List.foldl_cons, ihn, hn, List.length_cons]
      omega
    · simp only [List.foldl_cons, ihv, hv, List.cons_append, List.append_assoc,
        List.singleton_append, List.nil_append]

/-- A value below `2^w` has at most `w` binary digits, whatever the fuel. -/
theorem bitLenF_le (fuel : Nat) : ∀ (n w : Nat), n < 2 ^ w → bitLenF fuel n ≤ w := by
  induction fuel with
  | zero => intro n w _; exact Nat.zero_le w
  | succ fuel ih =>
    intro n w hn
    rw [bitLenF]
    by_cases h0 : n = 0
    · simp [h0]
    · rw [if_neg h0]
      have hw : 0 < w := by
        rcases Nat.eq_zero_or_pos w with hw | hw
        · subst hw; omega
        · exact hw
      have hdiv : n / 2 < 2 ^ (w - 1) := by
        rw [Nat.div_lt_iff_lt_mul (by norm_num)]
        calc n < 2 ^ w := hn
        _ = 2 ^ (w - 1) * 2 := by
          rw [← pow_succ]
          congr 1
          omega
      have := ih (n / 2) (w - 1) hdiv
      omega

/-- When `num < 2^size` and `size > 0`, the bits the Python loop writes are
exactly the `size` low-order bits of `num`, least significant first. -/
theorem pyEncodedBits_eq_lsbBits (num size : Nat) (hw : 0 < size) (hc : num < 2 ^ size) :
    pyEncodedBits num size = lsbBits num size := by
  unfold pyEncodedBits lsbBits
  have hsz : bitLenF num num ≤ size := bitLenF_le num num size hc
  have : max size (pyBitLen num) = size := by
    unfold pyBitLen
    omega
  rw [this]

/-- `encode_bits` under the claim's side condition: the view grows by the
`size` low bits of `num` (LSB first) and the counter by exactly `size`. -/
theorem encode_bits_spec (st : DataBlock) (num size : Nat) (h : st.WF)
    (hw : 0 < size) (hc : num < 2 ^ size) :
    (st.encode_bits num size).WF ∧
      (st.encode_bits num size).nbits = st.nbits + size ∧
      bitsView (st.encode_bits num size) = bitsView st ++ lsbBits num size := by
  unfold DataBlock.encode_bits
  rw [pyEncodedBits_eq_lsbBits num size hw hc]
  have := foldl_writeBit_spec (lsbBits num size) st h
  simpa [lsbBits] using this

theorem take_drop_of_length_eq {α : Type} (l1 l2 : List α) (n : Nat) (h : l1.length = n) :
    (l1 ++ l2).take n = l1 ∧ (l1 ++ l2).drop n = l2 := by
  constructor
  · rw [← h, List.take_left]
  · rw [← h, List.drop_left]

/-- Stripping the length prefixes undoes the sub-block chunking (for any
sufficient fuel). -/
theorem deblock_dumpChunksF (fuel : Nat) : ∀ (bs : List Nat), bs.length ≤ fuel →
    deblock (dumpChunksF fuel bs) = bs := by
  induction fuel with
  | zero =>
    intro bs hlen
    have : bs = [] := List.eq_nil_of_length_eq_zero (by omega)
    subst this
    simp [dumpChunksF, deblock]
  | succ fuel ih =>
    intro bs hlen
    rw [dumpChunksF]
    by_cases hgt : 255 < bs.length
    · rw [if_pos hgt]
      have htk : (bs.take 255).length = 255 := by
        rw [List.length_take]
        omega
      obtain ⟨h1, h2⟩ :=
        take_drop_of_length_eq (bs.take 255) (dumpChunksF fuel (bs.drop 255)) 255 htk
      rw [deblock, h1, h2, ih (bs.drop 255) (by simp; omega), List.take_append_drop]
    · rw [if_neg hgt]
      by_cases hpos : 0 < bs.length
      · rw [if_pos hpos, deblock]
        simp [deblock]
      · rw [if_neg hpos]
        have : bs = [] := List.eq_nil_of_length_eq_zero (by omega)
        subst this
        simp [deblock]

theorem deblock_dumpChunks (bs : List Nat) : deblock (dumpChunks bs) = bs :=
  deblock_dumpChunksF bs.length bs le_rfl

/-- On a well-formed state the full byte expansion is the abstract bit view
followed by zero padding up to the byte boundary. -/
theorem bytesToBits_of_WF (st : DataBlock) (h : st.WF) :
    bytesToBits st.bitstream =
      bitsView st ++ List.replicate (8 * st.bitstream.length - st.nbits) false := by
  obtain ⟨hlen, hhigh, _⟩ := h
  have hle : st.nbits ≤ 8 * st.bitstream.length := by omega
  unfold bytesToBits bitsView
  rw [show 8 * st.bitstream.length = st.nbits + (8 * st.bitstream.length - st.nbits) by omega]
  rw [List.range_add, List.map_append, List.map_map]
  congr 1
  rw [List.eq_replicate_iff]
  refine ⟨by simp, fun b hb => ?_⟩
  simp only [List.mem_map, List.mem_range, Function.comp] at hb
  obtain ⟨j, _, hj⟩ := hb
  rw [← hj]
  exact hhigh _ (by omega)

/-- Reading `w` bits LSB-first recovers a value below `2^w`, whatever follows. -/
theorem readCode_lsbBits (w : Nat) : ∀ (c : Nat) (rest : List Bool), c < 2 ^ w →
    readCode w (lsbBits c w ++ rest) = c := by
  induction w with
  | zero =>
    intro c rest hc
    interval_cases c
    rfl
  | succ w ih =>
    intro c rest hc
    have hsplit : lsbBits c (w + 1) = c.testBit 0 :: lsbBits (c / 2) w := by
      unfold lsbBits
      rw [List.range_succ_eq_map]
      simp only [List.map_cons, List.map_map]
      congr 1
      exact List.map_congr_left fun i _ => Nat.testBit_succ c i
    rw [hsplit, List.cons_append, readCode]
    have hdiv : c / 2 < 2 ^ w := by
      rw [Nat.div_lt_iff_lt_mul (by norm_num)]
      calc c < 2 ^ (w + 1) := hc
      _ = 2 ^ w * 2 := by ring
    rw [ih (c / 2) rest hdiv]
    rw [Nat.testBit_zero]
    rcases Nat.mod_two_eq_zero_or_one c with hm | hm <;>
      · simp [hm]
        omega

/-- Reading back a concatenation of LSB-first encoded codes (followed by any
junk, e.g. byte padding) yields the original codes. -/
theorem readCodes_flatMap (calls : List (Nat × Nat)) (junk : List Bool)
    (h : ∀ p ∈ calls, p.1 < 2 ^ p.2) :
    readCodes (calls.map (·.2)) ((calls.flatMap fun p => lsbBits p.1 p.2) ++ junk) =
      calls.map (·.1) := by
  induction calls generalizing junk with
  | nil => rfl
  | cons p rest ih =>
    obtain ⟨c, w⟩ := p
    simp only [List.map_cons, List.flatMap_cons, List.append_assoc]
    rw [readCodes]
    have hc : c < 2 ^ w := h (c, w) (by simp)
    rw [readCode_lsbBits w c _ hc]
    have hlen : (lsbBits c w).length = w := by simp [lsbBits]
    rw [(take_drop_of_length_eq (lsbBits c w)
      ((rest.flatMap fun p => lsbBits p.1 p.2) ++ junk) w hlen).2]
    rw [ih junk (fun q hq => h q (List.mem_cons_of_mem _ hq))]

/-- The state reached by a sequence of `encode_bits` calls on a fresh
`DataBlock` (the claim's universally quantified call sequence). -/
def encodeCalls (calls : List (Nat × Nat)) : DataBlock :=
  calls.foldl (fun st p => st.encode_bits p.1 p.2) DataBlock.init

theorem encodeCalls_spec (calls : List (Nat × Nat))
    (h : ∀ p ∈ calls, 0 < p.2 ∧ p.1 < 2 ^ p.2) :
    (encodeCalls calls).WF ∧
      (encodeCalls calls).nbits = (calls.map (·.2)).sum ∧
      bitsView (encodeCalls calls) = calls.flatMap fun p => lsbBits p.1 p.2 := by
  suffices hgen : ∀ (st : DataBlock), st.WF →
      (calls.foldl (fun st p => st.encode_bits p.1 p.2) st).WF ∧
      (calls.foldl (fun st p => st.encode_bits p.1 p.2) st).nbits
        = st.nbits + (calls.map (·.2)).sum ∧
      bitsView (calls.foldl (fun st p => st.encode_bits p.1 p.2) st)
        = bitsView st ++ calls.flatMap fun p => lsbBits p.1 p.2 by
    have := hgen DataBlock.init DataBlock.init_WF
    simpa [encodeCalls, bitsView, DataBlock.init] using this
  induction calls with
  | nil => intro st hst; simpa using hst
  | cons p rest ih =>
    intro st hst
    obtain ⟨hp1, hp2⟩ := h p (by simp)
    obtain ⟨hwf, hn, hv⟩ := encode_bits_spec st p.1 p.2 hst hp1 hp2
    obtain ⟨ihwf, ihn, ihv⟩ := ih (fun q hq => h q (List.mem_cons_of_mem _ hq))
      (st.encode_bits p.1 p.2) hwf
    refine ⟨ihwf, ?_, ?_⟩
    · simp only [List.foldl_cons, ihn, hn, List.map_cons, List.sum_cons]
      omega
    · simp only [List.foldl_cons, ihv, hv, List.flatMap_cons, List.append_assoc]

/-- Claim C2, counterexample: as stated the claim quantifies over ALL
nonnegative codes, but `encode_bits(8, 3)` writes the binary string `1000`
(4 digits, because `bin(8)[2:]` is longer than `size=3`), so the bit position
advances by 4, not by the width 3. -/
theorem C2_counterexample :
    ¬ ((DataBlock.init.encode_bits 8 3).nbits = DataBlock.init.nbits + 3) := by
  decide

/-- Claim C2 (amended: each `code_i` must satisfy `code_i < 2^width_i`; the
source writes all of `bin(code)[2:]` and therefore overruns the width
otherwise): every sequence of `encode_bits(code, width)` calls with positive
widths and in-range codes advances the bit position by exactly the sum of the
widths, appends exactly the width low-order bits of each code LSB-first, and
reading the `dump_bytes` output with the length-prefix bytes stripped,
LSB-first, `width_i` bits per code, reconstructs the original code sequence. -/
theorem C2_encode_bits_roundtrip (calls : List (Nat × Nat))
    (h : ∀ p ∈ calls, 0 < p.2 ∧ p.1 < 2 ^ p.2) :
    (encodeCalls calls).nbits = (calls.map (·.2)).sum ∧
      bitsView (encodeCalls calls) = (calls.flatMap fun p => lsbBits p.1 p.2) ∧
      readCodes (calls.map (·.2))
          (bytesToBits (deblock (DataBlock.dump_bytes (encodeCalls calls))))
        = calls.map (·.1) := by
  obtain ⟨hwf, hn, hv⟩ := encodeCalls_spec calls h
  refine ⟨hn, hv, ?_⟩
  rw [DataBlock.dump_bytes, deblock_dumpChunks, bytesToBits_of_WF _ hwf, hv]
  exact readCodes_flatMap calls _ (fun p hp => (h p hp).2)

/-- Witness for C2 at the concrete call sequence
`encode_bits(3,5); encode_bits(6,4)`. -/
theorem C2_encode_bits_roundtrip_witness :
    readCodes [5, 4]
        (bytesToBits (deblock (DataBlock.dump_bytes (encodeCalls [(3, 5), (6, 4)]))))
      = [3, 6] := by
  have h := C2_encode_bits_roundtrip [(3, 5), (6, 4)] (by decide)
  simpa using h.2.2

/-! ## LZW compression (encoder.py lines 78-144)

`Compression.__call__` is embedded as a state machine.  The symbol type is a
parameter `σ` with an embedding `base : Nat → σ` of the color indices, because
Python tuples compare by value across mixed element types (the animation can
feed `None` through `pad_delay_frame`); the integer claims use `σ = Nat`,
`base = id`.  One step of the `for c in input_data` loop is `processSymbol`;
it returns the updated `(code_length, next_code, code_table)` state, the new
`pattern`, and the list of `(code, width)` pairs passed to
`self._stream.encode_bits` during that step, or `none` where the Python raises
`KeyError`.  `compressionCall` folds the emitted codes through the `DataBlock`
exactly as the source interleaves them. -/

/-- The mutable loop state of `Compression.__call__` (encoder.py lines
115-119): `code_length`, `next_code` and `code_table`. -/
structure LZWState (σ : Type) where
  codeLength : Nat
  nextCode : Nat
  codeTable : List (List σ × Nat)
  deriving Repr, DecidableEq

/-- Python dict lookup on the association-list embedding of `code_table`. -/
def tblLookup {σ : Type} [DecidableEq σ] (t : List (List σ × Nat)) (k : List σ) :
    Option Nat :=
  (t.find? (fun e => decide (e.1 = k))).map (·.2)

/-- `{(i,): i for i in range(1 << min_code_length)}` (encoder.py line 119). -/
def initTable (mcl : Nat) {σ : Type} (base : Nat → σ) : List (List σ × Nat) :=
  (List.range (1 <<< mcl)).map (fun i => ([base i], i))

/-- The state at the top of `__call__` (and after each dictionary reset):
`code_length = min_code_length + 1`, `next_code = end_code + 1`, fresh table. -/
def initLZWState (mcl : Nat) {σ : Type} (base : Nat → σ) : LZWState σ :=
  ⟨mcl + 1, (1 <<< mcl) + 2, initTable mcl base⟩

/-- One iteration of the `for c in input_data` loop (encoder.py lines
124-140).  Returns `none` where Python raises `KeyError`
(`code_table[pattern[:-1]]` with a missing key, i.e. when the running pattern
was not itself in the table — possible only when a symbol is outside the
initial alphabet). -/
def processSymbol {σ : Type} [DecidableEq σ] (mcl : Nat) (base : Nat → σ)
    (st : LZWState σ) (pat : List σ) (c : σ) :
    Option (LZWState σ × List σ × List (Nat × Nat)) :=
  if (tblLookup st.codeTable (pat ++ [c])).isSome then
    some (st, pat ++ [c], [])
  else
    match tblLookup (st.codeTable ++ [(pat ++ [c], st.nextCode)]) (pat ++ [c]).dropLast with
    | none => none
    | some prefCode =>
      if st.nextCode + 1 = 4096 then
        some (⟨mcl + 1, (1 <<< mcl) + 2, initTable mcl base⟩, [c],
          [(prefCode, st.codeLength),
           (1 <<< mcl,
            if st.nextCode + 1 = 2 ^ st.codeLength + 1 then st.codeLength + 1
            else st.codeLength)])
      else
        some (⟨(if st.nextCode + 1 = 2 ^ st.codeLength + 1 then st.codeLength + 1
                else st.codeLength),
               st.nextCode + 1,
               st.codeTable ++ [(pat ++ [c], st.nextCode)]⟩, [c],
          [(prefCode, st.codeLength)])

/-- The whole `for` loop, threading state, pattern and accumulated emissions. -/
def lzwProcess {σ : Type} [DecidableEq σ] (mcl : Nat) (base : Nat → σ) :
    LZWState σ → List σ → List σ → Option (LZWState σ × List σ × List (Nat × Nat))
  | st, pat, [] => some (st, pat, [])
  | st, pat, c :: rest =>
    match processSymbol mcl base st pat c with
    | none => none
    | some (st2, pat2, ems) =>
      match lzwProcess mcl base st2 pat2 rest with
      | none => none
      | some (st3, pat3, ems2) => some (st3, pat3, ems ++ ems2)

/-- The full `(code, width)` emission sequence of `Compression.__call__`
(encoder.py lines 107-143): clear code at `min_code_length + 1`, the loop's
emissions, the final pattern's code and the end code at the final width.
`none` where the Python call raises `KeyError` — in particular on empty input,
where line 142 evaluates `code_table[()]`. -/
def compressionRun {σ : Type} [DecidableEq σ] (mcl : Nat) (base : Nat → σ)
    (input : List σ) : Option (List (Nat × Nat)) :=
  match lzwProcess mcl base (initLZWState mcl base) [] input with
  | none => none
  | some (st, pat, ems) =>
    match tblLookup st.codeTable pat with
    | none => none
    | some finalCode =>
      some (((1 <<< mcl, mcl + 1) :: ems) ++
        [(finalCode, st.codeLength), ((1 <<< mcl) + 1, st.codeLength)])

/-- `Compression.__call__` (encoder.py line 144): one leading byte equal to
`min_code_length`, the packed sub-blocked bitstream, one trailing zero byte. -/
def compressionCall {σ : Type} [DecidableEq σ] (mcl : Nat) (base : Nat → σ)
    (input : List σ) : Option (List Nat) :=
  match compressionRun mcl base input with
  | none => none
  | some ems =>
    some (mcl ::
      (DataBlock.dump_bytes
        (ems.foldl (fun db cw => db.encode_bits cw.1 cw.2) DataBlock.init) ++ [0]))

/-! ## Invariants of the compression loop state (claims C4, C5) -/

theorem one_shiftLeft_eq (m : Nat) : 1 <<< m = 2 ^ m := by
  rw [Nat.shiftLeft_eq, one_mul]

theorem initTable_length (mcl : Nat) {σ : Type} (base : Nat → σ) :
    (initTable mcl base).length = 2 ^ mcl := by
  simp [initTable, one_shiftLeft_eq]

/-- Invariant of the loop state of `Compression.__call__`, maintained for
`min_code_length ∈ [2, 11]`: width bounds, the table size determines
`next_code`, and `next_code` stays within the current width's range and
strictly below the 4096 cap between steps. -/
def LZWInv (mcl : Nat) {σ : Type} (st : LZWState σ) : Prop :=
  mcl + 1 ≤ st.codeLength ∧ st.codeLength ≤ 12 ∧
  st.nextCode = st.codeTable.length + 2 ∧
  2 ^ mcl + 2 ≤ st.nextCode ∧
  st.nextCode ≤ 2 ^ st.codeLength ∧
  st.nextCode ≤ 4095

theorem initLZWState_inv (mcl : Nat) {σ : Type} (base : Nat → σ)
    (hm2 : 2 ≤ mcl) (hm11 : mcl ≤ 11) : LZWInv mcl (initLZWState mcl base) := by
  have h4 : 4 ≤ 2 ^ mcl := by
    calc (4 : Nat) = 2 ^ 2 := rfl
    _ ≤ 2 ^ mcl := Nat.pow_le_pow_right (by norm_num) hm2
  have h2048 : 2 ^ mcl ≤ 2 ^ 11 := Nat.pow_le_pow_right (by norm_num) hm11
  have hsucc : 2 ^ (mcl + 1) = 2 ^ mcl * 2 := pow_succ 2 mcl
  refine ⟨le_refl _, ?_, ?_, ?_, ?_, ?_⟩
  · show mcl + 1 ≤ 12
    omega
  · show (1 <<< mcl) + 2 = (initTable mcl base).length + 2
    rw [initTable_length, one_shiftLeft_eq]
  · show 2 ^ mcl + 2 ≤ (1 <<< mcl) + 2
    rw [one_shiftLeft_eq]
  · show (1 <<< mcl) + 2 ≤ 2 ^ (mcl + 1)
    rw [one_shiftLeft_eq]
    omega
  · show (1 <<< mcl) + 2 ≤ 4095
    rw [one_shiftLeft_eq]
    norm_num at h2048
    omega

/-- One loop iteration preserves the invariant. -/
theorem processSymbol_inv {σ : Type} [DecidableEq σ] (mcl : Nat) (base : Nat → σ)
    (hm2 : 2 ≤ mcl) (hm11 : mcl ≤ 11) (st : LZWState σ) (pat : List σ) (c : σ)
    (st2 : LZWState σ) (pat2 : List σ) (ems : List (Nat × Nat))
    (hinv : LZWInv mcl st)
    (hstep : processSymbol mcl base st pat c = some (st2, pat2, ems)) :
    LZWInv mcl st2 := by
  unfold processSymbol at hstep
  by_cases hhit : (tblLookup st.codeTable (pat ++ [c])).isSome
  · rw [if_pos hhit] at hstep
    simp only [Option.some.injEq, Prod.mk.injEq] at hstep
    obtain ⟨h1, _, _⟩ := hstep
    rw [← h1]
    exact hinv
  · rw [if_neg hhit] at hstep
    cases hpre : tblLookup (st.codeTable ++ [(pat ++ [c], st.nextCode)])
        (pat ++ [c]).dropLast with
    | none =>
      rw [hpre] at hstep
      exact Option.noConfusion hstep
    | some prefCode =>
      simp only [hpre] at hstep
      obtain ⟨i1, i2, i3, i4, i5, i6⟩ := hinv
      by_cases hr : st.nextCode + 1 = 4096
      · rw [if_pos hr] at hstep
        simp only [Option.some.injEq, Prod.mk.injEq] at hstep
        obtain ⟨h1, _, _⟩ := hstep
        rw [← h1]
        exact initLZWState_inv mcl base hm2 hm11
      · rw [if_neg hr] at hstep
        simp only [Option.some.injEq, Prod.mk.injEq] at hstep
        obtain ⟨h1, _, _⟩ := hstep
        rw [← h1]
        have hone : 1 ≤ 2 ^ st.codeLength := Nat.one_le_two_pow
        by_cases hw : st.nextCode + 1 = 2 ^ st.codeLength + 1
        · have hcl11 : st.codeLength ≤ 11 := by
            by_contra hgt
            have h12 : st.codeLength = 12 := by omega
            rw [h12] at hw
            norm_num at hw
            omega
          have hsucc : 2 ^ (st.codeLength + 1) = 2 ^ st.codeLength * 2 :=
            pow_succ 2 st.codeLength
          refine ⟨?_, ?_, ?_, ?_, ?_, ?_⟩ <;>
            simp only [if_pos hw, List.length_append, List.length_singleton] <;>
            omega
        · refine ⟨?_, ?_, ?_, ?_, ?_, ?_⟩ <;>
            simp only [if_neg hw, List.length_append, List.length_singleton] <;>
            omega

/-- The invariant holds at every state the loop reaches. -/
theorem lzwProcess_inv {σ : Type} [DecidableEq σ] (mcl : Nat) (base : Nat → σ)
    (hm2 : 2 ≤ mcl) (hm11 : mcl ≤ 11) (input : List σ) :
    ∀ (st : LZWState σ) (pat : List σ) (st2 : LZWState σ) (pat2 : List σ)
      (ems : List (Nat × Nat)),
      LZWInv mcl st →
      lzwProcess mcl base st pat input = some (st2, pat2, ems) →
      LZWInv mcl st2 := by
  induction input with
  | nil =>
    intro st pat st2 pat2 ems hinv hrun
    simp only [lzwProcess, Option.some.injEq, Prod.mk.injEq] at hrun
    obtain ⟨h1, _, _⟩ := hrun
    rw [← h1]
    exact hinv
  | cons c rest ih =>
    intro st pat st2 pat2 ems hinv hrun
    rw [lzwProcess] at hrun
    cases hstep : processSymbol mcl base st pat c with
    | none =>
      rw [hstep] at hrun
      exact Option.noConfusion hrun
    | some v =>
      obtain ⟨stm, patm, emsm⟩ := v
      simp only [hstep] at hrun
      cases hrest : lzwProcess mcl base stm patm rest with
      | none =>
        simp only [hrest] at hrun
        exact Option.noConfusion hrun
      | some w =>
        obtain ⟨st3, pat3, ems3⟩ := w
        simp only [hrest] at hrun
        simp only [Option.some.injEq, Prod.mk.injEq] at hrun
        obtain ⟨h1, _, _⟩ := hrun
        rw [← h1]
        exact ih stm patm st3 pat3 ems3
          (processSymbol_inv mcl base hm2 hm11 st pat c stm patm emsm hinv hstep) hrest

/-- The initial code table has no entry for the empty pattern: all keys are
one-element tuples. -/
theorem tblLookup_initTable_nil {σ : Type} [DecidableEq σ] (mcl : Nat) (base : Nat → σ) :
    tblLookup (initTable mcl base) [] = none := by
  unfold tblLookup initTable
  rw [List.find?_eq_none.mpr]
  · rfl
  · intro x hx
    simp only [List.mem_map, List.mem_range] at hx
    obtain ⟨i, _, hi⟩ := hx
    rw [← hi]
    simp

/-- Claim C1 (evidence for the code bug at the empty sequence): for every
`min_code_length`, `Compression.__call__` on the empty symbol sequence does
not produce a decodable stream at all — it raises `KeyError` at
`code_table[pattern]` (encoder.py line 142) because `pattern` is the empty
tuple, which is never a key of the table.  The claim requires the output to
decode to the empty sequence instead. -/
theorem C1_empty_input_keyerror (mcl : Nat) :
    compressionCall mcl (id : Nat → Nat) [] = none := by
  unfold compressionCall compressionRun
  rw [lzwProcess]
  simp only [initLZWState, tblLookup_initTable_nil]

/-- Claim C3 (evidence for the code bug): compressing the empty input with
`min_code_length = 2` raises `KeyError` (`code_table[()]`, encoder.py line
142) instead of succeeding with the clear-code/end-code stream the claim
describes. -/
theorem C3_empty_input_keyerror :
    compressionCall 2 (id : Nat → Nat) [] = none := by
  decide

/-- Claim C4, counterexample: the claim covers every accepted
`min_code_length`, but for `min_code_length = 12` (which `Compression`
accepts, per its docstring) the code width is 13 from the start of the run —
already the clear code is emitted with width 13 — so the width does not stay
within `[min_code_length + 1, 12]` and exceeds 12. -/
theorem C4_counterexample :
    lzwProcess 12 (id : Nat → Nat) (initLZWState 12 id) [] []
        = some (initLZWState 12 id, [], []) ∧
      ¬ ((initLZWState 12 (id : Nat → Nat)).codeLength ≤ 12) :=
  ⟨rfl, by decide⟩

/-- Claim C4 (amended: for `min_code_length ∈ [2, 11]`; `min_code_length = 12`
is excluded, see the counterexample): at every state reached by the loop of
`Compression.__call__`, the code width lies in `[min_code_length + 1, 12]`,
and any further step that does not emit the clear code (same dictionary
lifetime) keeps the width ≤ 12, never decreases it, and increases it exactly
when the freshly incremented `next_code` exceeds the range representable in
the current width (`next_code = 2^width + 1`). -/
theorem C4_code_width {σ : Type} [DecidableEq σ] (mcl : Nat) (base : Nat → σ)
    (hm2 : 2 ≤ mcl) (hm11 : mcl ≤ 11) (input : List σ)
    (st : LZWState σ) (pat : List σ) (ems : List (Nat × Nat))
    (hrun : lzwProcess mcl base (initLZWState mcl base) [] input = some (st, pat, ems)) :
    (mcl + 1 ≤ st.codeLength ∧ st.codeLength ≤ 12) ∧
    ∀ (c : σ) (st2 : LZWState σ) (pat2 : List σ) (ems2 : List (Nat × Nat)),
      processSymbol mcl base st pat c = some (st2, pat2, ems2) →
      (∀ e ∈ ems2, e.1 ≠ 1 <<< mcl) →
      st.codeLength ≤ st2.codeLength ∧ st2.codeLength ≤ 12 ∧
      (st2.codeLength = st.codeLength + 1 ↔
        st2.nextCode = st.nextCode + 1 ∧ st.nextCode + 1 = 2 ^ st.codeLength + 1) := by
  have hinv : LZWInv mcl st :=
    lzwProcess_inv mcl base hm2 hm11 input (initLZWState mcl base) [] st pat ems
      (initLZWState_inv mcl base hm2 hm11) hrun
  obtain ⟨i1, i2, i3, i4, i5, i6⟩ := hinv
  refine ⟨⟨i1, i2⟩, ?_⟩
  intro c st2 pat2 ems2 hstep hnoclear
  have hinv2 : LZWInv mcl st2 :=
    processSymbol_inv mcl base hm2 hm11 st pat c st2 pat2 ems2 ⟨i1, i2, i3, i4, i5, i6⟩ hstep
  unfold processSymbol at hstep
  by_cases hhit : (tblLookup st.codeTable (pat ++ [c])).isSome
  · rw [if_pos hhit] at hstep
    simp only [Option.some.injEq, Prod.mk.injEq] at hstep
    obtain ⟨h1, _, _⟩ := hstep
    have hcl2 : st2.codeLength = st.codeLength := by rw [← h1]
    have hnc2 : st2.nextCode = st.nextCode := by rw [← h1]
    refine ⟨by omega, hinv2.2.1, ?_⟩
    constructor
    · intro hcl
      omega
    · intro ⟨hnc, _⟩
      omega
  · rw [if_neg hhit] at hstep
    cases hpre : tblLookup (st.codeTable ++ [(pat ++ [c], st.nextCode)])
        (pat ++ [c]).dropLast with
    | none =>
      rw [hpre] at hstep
      exact Option.noConfusion hstep
    | some prefCode =>
      simp only [hpre] at hstep
      by_cases hr : st.nextCode + 1 = 4096
      · -- the reset branch emits the clear code, excluded by `hnoclear`
        rw [if_pos hr] at hstep
        simp only [Option.some.injEq, Prod.mk.injEq] at hstep
        obtain ⟨_, _, h3⟩ := hstep
        exfalso
        refine hnoclear (1 <<< mcl,
          if st.nextCode + 1 = 2 ^ st.codeLength + 1 then st.codeLength + 1
          else st.codeLength) ?_ rfl
        rw [← h3]
        simp
      · rw [if_neg hr] at hstep
        simp only [Option.some.injEq, Prod.mk.injEq] at hstep
        obtain ⟨h1, _, _⟩ := hstep
        have hcl2 : st2.codeLength =
            if st.nextCode + 1 = 2 ^ st.codeLength + 1 then st.codeLength + 1
            else st.codeLength := by rw [← h1]
        have hnc2 : st2.nextCode = st.nextCode + 1 := by rw [← h1]
        refine ⟨?_, hinv2.2.1, ?_⟩
        · by_cases hw : st.nextCode + 1 = 2 ^ st.codeLength + 1
          · rw [hcl2, if_pos hw]
            omega
          · rw [hcl2, if_neg hw]
        · constructor
          · intro hcl
            refine ⟨hnc2, ?_⟩
            by_cases hw : st.nextCode + 1 = 2 ^ st.codeLength + 1
            · exact hw
            · exfalso
              rw [if_neg hw] at hcl2
              omega
          · intro ⟨_, hw⟩
            rw [hcl2, if_pos hw]

/-- Witness for C4: the state after compressing `[0, 0]` with
`min_code_length = 2` has width 3 within `[3, 12]`. -/
theorem C4_code_width_witness :
    3 ≤ (⟨3, 7, initTable 2 (id : Nat → Nat) ++ [([0, 0], 6)]⟩ : LZWState Nat).codeLength ∧
      (⟨3, 7, initTable 2 (id : Nat → Nat) ++ [([0, 0], 6)]⟩ : LZWState Nat).codeLength ≤ 12 :=
  (C4_code_width 2 id (by norm_num) (by norm_num) [0, 0]
    ⟨3, 7, initTable 2 id ++ [([0, 0], 6)]⟩ [0] [(0, 3)] (by decide)).1

set_option maxRecDepth 10000 in
/-- Claim C5, counterexample: for `min_code_length = 12` (accepted by
`Compression`), the initial code table alone has `2^12 = 4096` single-symbol
entries, so together with the implicit clear and end codes there are 4098
live codes — above 4096 — and `next_code` starts at 4098, so the
`next_code == 4096` reset can never fire. -/
theorem C5_counterexample :
    lzwProcess 12 (id : Nat → Nat) (initLZWState 12 id) [] []
        = some (initLZWState 12 id, [], []) ∧
      ¬ ((initLZWState 12 (id : Nat → Nat)).codeTable.length + 2 ≤ 4096) := by
  refine ⟨rfl, ?_⟩
  rw [show (initLZWState 12 (id : Nat → Nat)).codeTable = initTable 12 id from rfl,
    initTable_length]
  norm_num

/-- Claim C5 (amended: for `min_code_length ∈ [2, 11]`): at every reachable
state of `Compression.__call__`'s loop the live code count — table entries
plus the implicit clear and end codes — is at most 4095, and even in the
middle of a step, right after a new pattern is inserted, it is at most 4096;
when a step drives `next_code` to 4096 (necessarily a dictionary-miss step,
so it emits at least one code), the step emits the clear code at the current
width as its last emission and resets width, dictionary and `next_code` to
their initial values. -/
theorem C5_dictionary_bound {σ : Type} [DecidableEq σ] (mcl : Nat) (base : Nat → σ)
    (hm2 : 2 ≤ mcl) (hm11 : mcl ≤ 11) (input : List σ)
    (st : LZWState σ) (pat : List σ) (ems : List (Nat × Nat))
    (hrun : lzwProcess mcl base (initLZWState mcl base) [] input = some (st, pat, ems)) :
    st.codeTable.length + 2 ≤ 4095 ∧
    ∀ (c : σ) (st2 : LZWState σ) (pat2 : List σ) (ems2 : List (Nat × Nat)),
      processSymbol mcl base st pat c = some (st2, pat2, ems2) →
      (st.codeTable ++ [(pat ++ [c], st.nextCode)]).length + 2 ≤ 4096 ∧
      (st.nextCode + 1 = 4096 → ems2 ≠ [] →
        ems2.getLast? = some (1 <<< mcl, st.codeLength) ∧
        st2 = initLZWState mcl base) := by
  have hinv : LZWInv mcl st :=
    lzwProcess_inv mcl base hm2 hm11 input (initLZWState mcl base) [] st pat ems
      (initLZWState_inv mcl base hm2 hm11) hrun
  obtain ⟨i1, i2, i3, i4, i5, i6⟩ := hinv
  refine ⟨by omega, ?_⟩
  intro c st2 pat2 ems2 hstep
  refine ⟨by simp only [List.length_append, List.length_singleton]; omega, ?_⟩
  intro hr hne
  -- `next_code` only moves on a miss, and the reset branch then fires
  unfold processSymbol at hstep
  by_cases hhit : (tblLookup st.codeTable (pat ++ [c])).isSome
  · rw [if_pos hhit] at hstep
    simp only [Option.some.injEq, Prod.mk.injEq] at hstep
    obtain ⟨_, _, h3⟩ := hstep
    exact absurd h3.symm hne
  · rw [if_neg hhit] at hstep
    cases hpre : tblLookup (st.codeTable ++ [(pat ++ [c], st.nextCode)])
        (pat ++ [c]).dropLast with
    | none =>
      rw [hpre] at hstep
      exact Option.noConfusion hstep
    | some prefCode =>
      simp only [hpre] at hstep
      rw [if_pos hr] at hstep
      simp only [Option.some.injEq, Prod.mk.injEq] at hstep
      obtain ⟨h1, _, h3⟩ := hstep
      -- the width-bump test cannot fire together with the reset:
      -- 2^width is even, 4095 is odd
      have hweven : 2 ^ st.codeLength = 2 ^ (st.codeLength - 1) * 2 := by
        rw [← pow_succ]
        congr 1
        omega
      have hw : ¬ (st.nextCode + 1 = 2 ^ st.codeLength + 1) := by
        intro hw
        omega
      constructor
      · rw [← h3, if_neg hw]
        rfl
      · rw [← h1]
        rfl

/-- Witness for C5: after compressing `[1, 1]` with `min_code_length = 2` the
table has 5 entries, i.e. 7 live codes including clear and end. -/
theorem C5_dictionary_bound_witness :
    (⟨3, 7, initTable 2 (id : Nat → Nat) ++ [([1, 1], 6)]⟩
        : LZWState Nat).codeTable.length + 2 ≤ 4095 :=
  (C5_dictionary_bound 2 id (by norm_num) (by norm_num) [1, 1]
    ⟨3, 7, initTable 2 id ++ [([1, 1], 6)]⟩ [1] [(1, 3)] (by decide)).1

/-! ## Constructor validation and the global color table (claims C6, C7) -/

/-- surface.py lines 45-46: the condition under which `GIFSurface.__init__`
raises `ValueError('Invalid color depth.')`.  `isInt` stands for
`isinstance(color_depth, int)`.  The source combines the two tests with
`and`: `not isinstance(color_depth, int) and 1 <= color_depth <= 8`. -/
def colorDepthCheckFails (isInt : Bool) (colorDepth : Int) : Bool :=
  !isInt && (decide (1 ≤ colorDepth) && decide (colorDepth ≤ 8))

/-- encoder.py lines 97-99: the condition under which `Compression.__init__`
raises `ValueError('Invalid minimum code length.')`:
`not isinstance(min_code_length, int) and not 2 <= min_code_length <= 12`. -/
def minCodeLengthCheckFails (isInt : Bool) (n : Int) : Bool :=
  !isInt && !(decide (2 ≤ n) && decide (n ≤ 12))

/-- Claim C6 (evidence for the code bug): both validation conditions are
`False` for every `int` input because `not isinstance(..., int)` is `False`
and the tests are joined with `and`; in particular `GIFSurface` with
`color_depth = 9` and `Compression` with `min_code_length = 13` raise
nothing, while the claim says both fail with a configuration error. -/
theorem C6_validation_never_fires :
    colorDepthCheckFails true 9 = false ∧ minCodeLengthCheckFails true 13 = false := by
  decide

/-- `global_color_table` (encoder.py lines 181-208): byte conversion, the
length check against `3 * (1 << color_depth)`, truncation of the excess. -/
def global_color_table (color_depth : Nat) (palette : List Nat) :
    Except String (List Nat) :=
  if ¬ (palette.all (· < 256)) then
    Except.error "Cannot convert palette to bytearray."
  else if palette.length < 3 * (1 <<< color_depth) then
    Except.error "Invalid palette length."
  else if 3 * (1 <<< color_depth) < palette.length then
    Except.ok (palette.take (3 * (1 <<< color_depth)))
  else
    Except.ok palette

/-- Claim C7: for every color depth, a palette shorter than `3·2^depth` bytes
fails with the length error, and any other palette yields exactly its first
`3·2^depth` bytes, excess discarded without error.  (`GIFSurface.set_palette`
is `global_color_table` applied at the surface's depth, surface.py line 70.) -/
theorem C7_set_palette (d : Nat) (palette : List Nat)
    (hbytes : palette.all (· < 256) = true) :
    (palette.length < 3 * 2 ^ d →
      global_color_table d palette = Except.error "Invalid palette length.") ∧
    (3 * 2 ^ d ≤ palette.length →
      global_color_table d palette = Except.ok (palette.take (3 * 2 ^ d))) := by
  unfold global_color_table
  rw [one_shiftLeft_eq, if_neg (by simp [hbytes])]
  constructor
  · intro h
    rw [if_pos h]
  · intro h
    rw [if_neg (by omega)]
    by_cases hgt : 3 * 2 ^ d < palette.length
    · rw [if_pos hgt]
    · rw [if_neg hgt]
      have hlen : 3 * 2 ^ d = palette.length := by omega
      rw [hlen, List.take_length]

/-- Witness for C7: the spec's scenario, `color_depth = 2` with a 3-byte
palette, fails; with `color_depth = 1` a 7-byte palette is truncated to its
first 6 bytes. -/
theorem C7_set_palette_witness :
    global_color_table 2 [0, 0, 0] = Except.error "Invalid palette length." ∧
    global_color_table 1 [1, 2, 3, 4, 5, 6, 7] = Except.ok [1, 2, 3, 4, 5, 6] := by
  constructor
  · exact (C7_set_palette 2 [0, 0, 0] (by decide)).1 (by norm_num)
  · have := (C7_set_palette 1 [1, 2, 3, 4, 5, 6, 7] (by decide)).2 (by norm_num)
    simpa using this

/-! ## Maze (maze.py; claims C8, C9) -/

/-- The state of a `Maze` that the claims depend on: `self.size`, the
column-major grid (`self._grid[x][y]`, maze.py line 41), the change counter
and the dirty box.  The `cells` list and `_graph` adjacency map built from
the mask are not modelled: no claim mentions them and `mark_cell`,
`get_cell` and `reset` never touch them. -/
structure Maze where
  size : Nat × Nat
  grid : List (List Nat)
  num_changes : Nat
  frame_box : Option (Nat × Nat × Nat × Nat)
  deriving Repr, DecidableEq

/-- `Maze.__init__` with `mask=None` (maze.py lines 37-43): rejects even
`width * height`, builds the all-wall grid, zero counter, empty box. -/
def mazeInit (width height : Nat) : Option Maze :=
  if width * height % 2 = 0 then none
  else some ⟨(width, height), List.replicate width (List.replicate height 0), 0, none⟩

/-- `Maze.mark_cell` (maze.py lines 83-94): write the cell, bump the counter,
extend (or start) the frame box.  `none` models the `IndexError` Python
raises when a (nonnegative) coordinate is outside the grid. -/
def Maze.mark_cell (m : Maze) (cell : Nat × Nat) (value : Nat) : Option Maze :=
  match m.grid[cell.1]? with
  | none => none
  | some col =>
    if cell.2 < col.length then
      some { m with
        grid := m.grid.set cell.1 (col.set cell.2 value),
        num_changes := m.num_changes + 1,
        frame_box := some (match m.frame_box with
          | some (l, t, r, b) => (min cell.1 l, min cell.2 t, max cell.1 r, max cell.2 b)
          | none => (cell.1, cell.2, cell.1, cell.2)) }
    else none

/-- `Maze.get_cell` (maze.py lines 108-110). -/
def Maze.get_cell (m : Maze) (cell : Nat × Nat) : Option Nat :=
  (m.grid[cell.1]?).bind (fun col => col[cell.2]?)

/-- `Maze.reset` (maze.py lines 130-132). -/
def Maze.reset (m : Maze) : Maze :=
  { m with num_changes := 0, frame_box := none }

/-- A sequence of `mark_cell` calls. -/
def applyMarks (m : Maze) : List ((Nat × Nat) × Nat) → Option Maze
  | [] => some m
  | (cell, v) :: rest =>
    match m.mark_cell cell v with
    | none => none
    | some m2 => applyMarks m2 rest

/-- Extend a bounding box by one coordinate (min/max componentwise). -/
def extendBox (bx : Nat × Nat × Nat × Nat) (c : Nat × Nat) : Nat × Nat × Nat × Nat :=
  (min c.1 bx.1, min c.2 bx.2.1, max c.1 bx.2.2.1, max c.2 bx.2.2.2)

/-- The tight axis-aligned bounding box of a coordinate list (claim C8's
words: min x, min y, max x, max y — computed as the min/max fold); `none`
for an empty list. -/
def tightBox : List (Nat × Nat) → Option (Nat × Nat × Nat × Nat)
  | [] => none
  | (x, y) :: rest => some (rest.foldl extendBox (x, y, x, y))

theorem foldl_extendBox_some (cs : List (Nat × Nat)) :
    ∀ (b : Nat × Nat × Nat × Nat),
      cs.foldl (fun ob c => some (match ob with
        | some bx => extendBox bx c
        | none => (c.1, c.2, c.1, c.2))) (some b)
      = some (cs.foldl extendBox b) := by
  induction cs with
  | nil => intro b; rfl
  | cons c rest ih =>
    intro b
    simp only [List.foldl_cons]
    exact ih (extendBox b c)

/-- `mark_cell` preserves the shape of the grid and performs exactly the
counter/box bookkeeping of maze.py lines 86-94. -/
theorem mark_cell_spec (m : Maze) (cell : Nat × Nat) (v : Nat) (m2 : Maze)
    (h : m.mark_cell cell v = some m2) :
    m2.size = m.size ∧
    m2.grid.length = m.grid.length ∧
    (∀ i : Nat, (m2.grid[i]?).map List.length = (m.grid[i]?).map List.length) ∧
    m2.num_changes = m.num_changes + 1 ∧
    m2.frame_box = some (match m.frame_box with
      | some bx => extendBox bx cell
      | none => (cell.1, cell.2, cell.1, cell.2)) := by
  unfold Maze.mark_cell at h
  cases hcol : m.grid[cell.1]? with
  | none =>
    rw [hcol] at h
    exact Option.noConfusion h
  | some col =>
    simp only [hcol] at h
    by_cases hy : cell.2 < col.length
    · rw [if_pos hy] at h
      simp only [Option.some.injEq] at h
      subst h
      refine ⟨rfl, by simp, ?_, rfl, ?_⟩
      · intro i
        by_cases hi : i = cell.1
        · subst hi
          have hlt : cell.1 < m.grid.length := by
            by_contra hge
            rw [List.getElem?_eq_none (by omega)] at hcol
            exact Option.noConfusion hcol
          rw [List.getElem?_set_self hlt, hcol]
          simp
        · rw [List.getElem?_set_ne (fun he => hi he.symm)]
      · cases m.frame_box with
        | none => rfl
        | some bx =>
          obtain ⟨l, t, r, b⟩ := bx
          rfl
    · rw [if_neg hy] at h
      exact Option.noConfusion h

/-- Folding `mark_cell` over an in-bounds mark list succeeds, extends the
frame box coordinate by coordinate, counts every mark, and keeps the grid
shape. -/
theorem applyMarks_spec (marks : List ((Nat × Nat) × Nat)) :
    ∀ (m : Maze),
      (∀ p ∈ marks, p.1.1 < m.grid.length ∧
        p.1.2 < ((m.grid[p.1.1]?).getD []).length) →
      ∃ m2, applyMarks m marks = some m2 ∧
        m2.frame_box = (marks.map (·.1)).foldl
          (fun ob c => some (match ob with
            | some bx => extendBox bx c
            | none => (c.1, c.2, c.1, c.2))) m.frame_box ∧
        m2.num_changes = m.num_changes + marks.length ∧
        m2.grid.length = m.grid.length ∧
        (∀ i : Nat, (m2.grid[i]?).map List.length = (m.grid[i]?).map List.length) := by
  induction marks with
  | nil =>
    intro m _
    exact ⟨m, rfl, rfl, by simp, rfl, fun i => rfl⟩
  | cons p rest ih =>
    intro m hb
    obtain ⟨⟨x, y⟩, v⟩ := p
    obtain ⟨hx, hy⟩ := hb ((x, y), v) (by simp)
    obtain ⟨col, hcol⟩ : ∃ col, m.grid[x]? = some col := by
      rw [List.getElem?_eq_getElem hx]
      exact ⟨_, rfl⟩
    have hylt : y < col.length := by
      rw [hcol] at hy
      simpa using hy
    cases hmk : m.mark_cell (x, y) v with
    | none =>
      exfalso
      unfold Maze.mark_cell at hmk
      simp only [hcol] at hmk
      rw [if_pos hylt] at hmk
      exact Option.noConfusion hmk
    | some m1 =>
      obtain ⟨hsz, hlen, hshape, hnum, hbox⟩ := mark_cell_spec m (x, y) v m1 hmk
      have hb2 : ∀ p ∈ rest, p.1.1 < m1.grid.length ∧
          p.1.2 < ((m1.grid[p.1.1]?).getD []).length := by
        intro q hq
        obtain ⟨h1, h2⟩ := hb q (List.mem_cons_of_mem _ hq)
        refine ⟨by omega, ?_⟩
        obtain ⟨col1, hq1⟩ : ∃ col1, m.grid[q.1.1]? = some col1 := by
          rw [List.getElem?_eq_getElem h1]
          exact ⟨_, rfl⟩
        have := hshape q.1.1
        rw [hq1] at this
        cases hq2 : m1.grid[q.1.1]? with
        | none =>
          rw [hq2] at this
          exact Option.noConfusion this
        | some col2 =>
          rw [hq2] at this
          simp only [Option.map_some', Option.some.injEq] at this
          simp only [Option.getD_some]
          rw [hq1] at h2
          simp only [Option.getD_some] at h2
          omega
      obtain ⟨m2, hrest, hbox2, hnum2, hlen2, hshape2⟩ := ih m1 hb2
      refine ⟨m2, ?_, ?_, ?_, ?_, ?_⟩
      · show applyMarks m (((x, y), v) :: rest) = some m2
        unfold applyMarks
        rw [hmk]
        exact hrest
      · rw [hbox2, hbox]
        simp only [List.map_cons, List.foldl_cons]
      · rw [hnum2, hnum]
        simp only [List.length_cons]
        omega
      · omega
      · intro i
        rw [hshape2 i, hshape i]

/-- Claim C8: starting from any maze, resetting and then performing any
in-bounds sequence of `mark_cell` calls leaves `frame_box` equal to the tight
axis-aligned bounding box of exactly the marked coordinates (`none` when no
cell was marked). -/
theorem C8_frame_box_tight (m : Maze) (marks : List ((Nat × Nat) × Nat))
    (hbound : ∀ p ∈ marks, p.1.1 < m.grid.length ∧
      p.1.2 < ((m.grid[p.1.1]?).getD []).length) :
    ∃ m2, applyMarks m.reset marks = some m2 ∧
      m2.frame_box = tightBox (marks.map (·.1)) := by
  obtain ⟨m2, h1, h2, _, _, _⟩ := applyMarks_spec marks m.reset hbound
  refine ⟨m2, h1, ?_⟩
  rw [h2]
  cases hms : marks.map (·.1) with
  | nil => rfl
  | cons c cs =>
    obtain ⟨x, y⟩ := c
    simp only [List.foldl_cons]
    rw [tightBox]
    exact foldl_extendBox_some cs (x, y, x, y)

/-- Witness for C8: the spec's scenario — mark `(2,2)` then `(2,4)` on a 5×5
maze after a reset; the frame box is exactly the rectangle `(2,2)-(2,4)`. -/
theorem C8_frame_box_tight_witness :
    (applyMarks (Maze.reset ⟨(5, 5), List.replicate 5 (List.replicate 5 0), 0, none⟩)
        [((2, 2), 1), ((2, 4), 1)]).map Maze.frame_box = some (some (2, 2, 2, 4)) := by
  obtain ⟨m2, h1, h2⟩ :=
    C8_frame_box_tight ⟨(5, 5), List.replicate 5 (List.replicate 5 0), 0, none⟩
      [((2, 2), 1), ((2, 4), 1)] (by decide)
  rw [h1, Option.map_some', h2]
  decide

/-! ## GIF control blocks and the animation engine (claims C9, C10) -/

/-- `graphics_control_block` (encoder.py lines 162-171).  `struct.pack`
raises `struct.error` when `delay` exceeds 16 bits or the transparent index
is not a byte; those paths are `none`.  The transparent index is an
`Option Int` because `trans_index=None` selects the no-transparency variant. -/
def graphics_control_block (delay : Nat) (trans_index : Option Int) :
    Option (List Nat) :=
  match trans_index with
  | none =>
    if delay < 65536 then
      some [0x21, 0xF9, 4, 0b00000100, delay % 256, delay / 256, 0, 0]
    else none
  | some t =>
    if delay < 65536 ∧ 0 ≤ t ∧ t ≤ 255 then
      some [0x21, 0xF9, 4, 0b00000101, delay % 256, delay / 256, t.toNat, 0]
    else none

/-- `image_descriptor` (encoder.py lines 174-179); `none` models
`struct.error` for out-of-range fields. -/
def image_descriptor (left top width height : Nat) (byte : Nat := 0) :
    Option (List Nat) :=
  if left < 65536 ∧ top < 65536 ∧ width < 65536 ∧ height < 65536 ∧ byte < 256 then
    some [0x2C, left % 256, left / 256, top % 256, top / 256,
      width % 256, width / 256, height % 256, height / 256, byte]
  else none

/-- Colormap lookup (`self.colormap[val]`, animation.py line 100); `none`
models the `KeyError` for a cell value without a colormap entry. -/
def cmapLookup (cmap : List (Nat × Int)) (v : Nat) : Option Int :=
  (cmap.find? (fun e => decide (e.1 = v))).map (·.2)

/-- The state of an `Animation` bound to a maze (animation.py lines 14-30,
110-115).  The bound `GIFSurface` is represented by the two things the
animation uses: the `min_code_length` of its `Compression` instance (`mcl`)
and the list of chunks written to its in-memory file (`written`, one entry
per `write` call). -/
structure Animation where
  mcl : Nat
  written : List (List Nat)
  colormap : List (Nat × Int)
  speed : Nat
  trans_index : Option Int
  delay : Nat
  cell_size : Nat
  translation : Nat × Nat
  maze : Maze
  deriving Repr, DecidableEq

/-- `Animation._encode_frame` (animation.py lines 75-108): graphics control
block, image descriptor derived from the maze's `frame_box` (or the full
grid when the box is empty), the rectangle's pixels through the colormap,
LZW-compressed; finally the maze is reset.  `none` models any exception
(pack range, out-of-grid read, missing colormap key, `KeyError` in the
compressor). -/
def encode_frame (a : Animation) : Option (List Nat × Maze) :=
  match graphics_control_block a.delay a.trans_index with
  | none => none
  | some control =>
    match (match a.maze.frame_box with
      | some box => box
      | none => (0, 0, a.maze.size.1 - 1, a.maze.size.2 - 1)) with
    | (left, top, right, bottom) =>
      match image_descriptor (a.cell_size * left + a.translation.1)
          (a.cell_size * top + a.translation.2)
          (a.cell_size * (right - left + 1)) (a.cell_size * (bottom - top + 1)) with
      | none => none
      | some descriptor =>
        match (List.range ((right - left + 1) * (bottom - top + 1)
            * a.cell_size * a.cell_size)).mapM (fun i =>
              match a.maze.get_cell
                  ((i % ((right - left + 1) * a.cell_size)) / a.cell_size + left,
                   i / ((right - left + 1) * a.cell_size * a.cell_size) + top) with
              | none => none
              | some val => cmapLookup a.colormap val) with
        | none => none
        | some pixels =>
          match compressionCall a.mcl (fun i => (i : Int)) pixels with
          | none => none
          | some data => some (control ++ descriptor ++ data, a.maze.reset)

/-- `Animation.refresh_frame` (animation.py lines 65-68). -/
def refresh_frame (a : Animation) : Option Animation :=
  if a.speed ≤ a.maze.num_changes then
    match encode_frame a with
    | none => none
    | some (data, m2) => some { a with written := a.written ++ [data], maze := m2 }
  else some a

/-- `Animation.clear_remaining_changes` (animation.py lines 70-73). -/
def clear_remaining_changes (a : Animation) : Option Animation :=
  if 0 < a.maze.num_changes then
    match encode_frame a with
    | none => none
    | some (data, m2) => some { a with written := a.written ++ [data], maze := m2 }
  else some a

/-- `Animation.pad_delay_frame` (animation.py lines 57-63): a 1×1 frame whose
single pixel is `self.trans_index`, compressed by the surface's compressor.
The compressor's symbol type here is `Option Int`: the Python list
`[self.trans_index]` holds either `None` or an int, while the code table's
keys are int tuples. -/
def pad_delay_frame (a : Animation) (delay : Nat) : Option Animation :=
  match graphics_control_block delay a.trans_index with
  | none => none
  | some control =>
    match image_descriptor 0 0 1 1 with
    | none => none
    | some descriptor =>
      match compressionCall a.mcl (fun i => (some (i : Int) : Option Int))
          [a.trans_index] with
      | none => none
      | some data =>
        some { a with written := a.written ++ [control ++ descriptor ++ data] }

/-- Shape of every successful `_encode_frame`: one graphics control block,
one image descriptor for the (box or full-grid) rectangle scaled by
`cell_size`, the compressed data, and the maze handed back reset. -/
theorem encode_frame_some (a : Animation) (f : List Nat) (m2 : Maze)
    (h : encode_frame a = some (f, m2)) :
    m2 = a.maze.reset ∧
    ∃ (control descriptor data : List Nat) (left top right bottom : Nat),
      (a.maze.frame_box = some (left, top, right, bottom) ∨
        (a.maze.frame_box = none ∧ left = 0 ∧ top = 0 ∧
          right = a.maze.size.1 - 1 ∧ bottom = a.maze.size.2 - 1)) ∧
      graphics_control_block a.delay a.trans_index = some control ∧
      image_descriptor (a.cell_size * left + a.translation.1)
          (a.cell_size * top + a.translation.2)
          (a.cell_size * (right - left + 1)) (a.cell_size * (bottom - top + 1))
        = some descriptor ∧
      f = control ++ descriptor ++ data := by
  unfold encode_frame at h
  cases hc : graphics_control_block a.delay a.trans_index with
  | none =>
    rw [hc] at h
    exact Option.noConfusion h
  | some control =>
    simp only [hc] at h
    have hgen : ∀ (left top right bottom : Nat),
        (match (left, top, right, bottom) with
          | (left, top, right, bottom) =>
            match image_descriptor (a.cell_size * left + a.translation.1)
                (a.cell_size * top + a.translation.2)
                (a.cell_size * (right - left + 1))
                (a.cell_size * (bottom - top + 1)) with
            | none => none
            | some descriptor =>
              match (List.range ((right - left + 1) * (bottom - top + 1)
                  * a.cell_size * a.cell_size)).mapM (fun i =>
                    match a.maze.get_cell
                        ((i % ((right - left + 1) * a.cell_size)) / a.cell_size + left,
                         i / ((right - left + 1) * a.cell_size * a.cell_size) + top) with
                    | none => none
                    | some val => cmapLookup a.colormap val) with
              | none => none
              | some pixels =>
                match compressionCall a.mcl (fun i => (i : Int)) pixels with
                | none => none
                | some data => some (control ++ descriptor ++ data, a.maze.reset)) = some (f, m2) →
        m2 = a.maze.reset ∧
        ∃ descriptor data,
          image_descriptor (a.cell_size * left + a.translation.1)
              (a.cell_size * top + a.translation.2)
              (a.cell_size * (right - left + 1)) (a.cell_size * (bottom - top + 1))
            = some descriptor ∧
          f = control ++ descriptor ++ data := by
      intro left top right bottom hm
      simp only at hm
      cases hd : image_descriptor (a.cell_size * left + a.translation.1)
          (a.cell_size * top + a.translation.2)
          (a.cell_size * (right - left + 1)) (a.cell_size * (bottom - top + 1)) with
      | none =>
        rw [hd] at hm
        exact Option.noConfusion hm
      | some descriptor =>
        simp only [hd] at hm
        cases hp : (List.range ((right - left + 1) * (bottom - top + 1)
            * a.cell_size * a.cell_size)).mapM (fun i =>
              match a.maze.get_cell
                  ((i % ((right - left + 1) * a.cell_size)) / a.cell_size + left,
                   i / ((right - left + 1) * a.cell_size * a.cell_size) + top) with
              | none => none
              | some val => cmapLookup a.colormap val) with
        | none =>
          rw [hp] at hm
          exact Option.noConfusion hm
        | some pixels =>
          simp only [hp] at hm
          cases hz : compressionCall a.mcl (fun i => (i : Int)) pixels with
          | none =>
            rw [hz] at hm
            exact Option.noConfusion hm
          | some data =>
            simp only [hz, Option.some.injEq, Prod.mk.injEq] at hm
            obtain ⟨h1, h2⟩ := hm
            exact ⟨h2.symm, descriptor, data, rfl, h1.symm⟩
    cases hbox : a.maze.frame_box with
    | some box =>
      obtain ⟨left, top, right, bottom⟩ := box
      simp only [hbox] at h
      obtain ⟨hm2, descriptor, data, hd, hf⟩ := hgen left top right bottom h
      exact ⟨hm2, control, descriptor, data, left, top, right, bottom,
        Or.inl rfl, rfl, hd, hf⟩
    | none =>
      simp only [hbox] at h
      obtain ⟨hm2, descriptor, data, hd, hf⟩ :=
        hgen 0 0 (a.maze.size.1 - 1) (a.maze.size.2 - 1) h
      exact ⟨hm2, control, descriptor, data, 0, 0, a.maze.size.1 - 1, a.maze.size.2 - 1,
        Or.inr ⟨rfl, rfl, rfl, rfl, rfl⟩, rfl, hd, hf⟩

/-- Claim C9: whenever a flush fires (`refresh_frame` with
`num_changes ≥ speed`, or `clear_remaining_changes` with `num_changes > 0`)
and succeeds, exactly one frame chunk is appended to the surface, and the
bound maze comes back with a zero change counter and an empty frame box;
moreover when the dirty box is a single cell `(x, y)` the emitted frame's
image descriptor covers exactly the `cell_size × cell_size` rectangle of
that cell. -/
theorem C9_flush_one_frame (a : Animation) :
    (∀ a2, a.speed ≤ a.maze.num_changes → refresh_frame a = some a2 →
      (∃ f, a2.written = a.written ++ [f]) ∧
      a2.maze.num_changes = 0 ∧ a2.maze.frame_box = none) ∧
    (∀ a2, 0 < a.maze.num_changes → clear_remaining_changes a = some a2 →
      (∃ f, a2.written = a.written ++ [f]) ∧
      a2.maze.num_changes = 0 ∧ a2.maze.frame_box = none) ∧
    (∀ x y a2, a.maze.frame_box = some (x, y, x, y) →
      a.speed ≤ a.maze.num_changes → refresh_frame a = some a2 →
      ∃ control descriptor data,
        image_descriptor (a.cell_size * x + a.translation.1)
            (a.cell_size * y + a.translation.2) (a.cell_size * 1) (a.cell_size * 1)
          = some descriptor ∧
        a2.written = a.written ++ [control ++ descriptor ++ data]) := by
  have hkey : ∀ a2, refresh_frame a = some a2 → a.speed ≤ a.maze.num_changes →
      ∃ f m2, encode_frame a = some (f, m2) ∧
        a2.written = a.written ++ [f] ∧ a2.maze = m2 := by
    intro a2 hrf hsp
    unfold refresh_frame at hrf
    rw [if_pos hsp] at hrf
    cases he : encode_frame a with
    | none =>
      rw [he] at hrf
      exact Option.noConfusion hrf
    | some fm =>
      obtain ⟨f, m2⟩ := fm
      simp only [he, Option.some.injEq] at hrf
      exact ⟨f, m2, rfl, by rw [← hrf], by rw [← hrf]⟩
  refine ⟨?_, ?_, ?_⟩
  · intro a2 hsp hrf
    obtain ⟨f, m2, he, hw, hm⟩ := hkey a2 hrf hsp
    obtain ⟨hreset, _⟩ := encode_frame_some a f m2 he
    refine ⟨⟨f, hw⟩, ?_, ?_⟩ <;> rw [hm, hreset] <;> rfl
  · intro a2 hpos hcl
    unfold clear_remaining_changes at hcl
    rw [if_pos hpos] at hcl
    cases he : encode_frame a with
    | none =>
      rw [he] at hcl
      exact Option.noConfusion hcl
    | some fm =>
      obtain ⟨f, m2⟩ := fm
      simp only [he, Option.some.injEq] at hcl
      obtain ⟨hreset, _⟩ := encode_frame_some a f m2 he
      refine ⟨⟨f, by rw [← hcl]⟩, ?_, ?_⟩ <;> rw [← hcl] <;>
        simp only [] <;> rw [hreset] <;> rfl
  · intro x y a2 hbox hsp hrf
    obtain ⟨f, m2, he, hw, _⟩ := hkey a2 hrf hsp
    obtain ⟨_, control, descriptor, data, left, top, right, bottom,
      hor, _, hd, hf⟩ := encode_frame_some a f m2 he
    rcases hor with hor | hor
    · rw [hbox] at hor
      simp only [Option.some.injEq, Prod.mk.injEq] at hor
      obtain ⟨hl, ht, hr, hb⟩ := hor
      refine ⟨control, descriptor, data, ?_, by rw [hw, hf]⟩
      rw [← hd, ← hl, ← ht, ← hr, ← hb]
      simp only [Nat.sub_self, Nat.zero_add]
    · rw [hbox] at hor
      exact Option.noConfusion hor.1

/-- Concrete animation for the witnesses: depth-2 surface (`mcl = 2`),
identity colormap, speed 1, no transparent index, 1×1 maze whose single cell
was marked once. -/
def witnessAnim : Animation :=
  ⟨2, [], [(0, 0), (1, 1), (2, 2), (3, 3)], 1, none, 5, 1, (0, 0),
    ⟨(1, 1), [[1]], 1, some (0, 0, 0, 0)⟩⟩

/-- `witnessAnim` after `refresh_frame`: one frame written, maze reset. -/
def witnessAnimFlushed : Animation :=
  ⟨2, [[33, 249, 4, 4, 5, 0, 0, 0, 44, 0, 0, 0, 0, 1, 0, 1, 0, 0, 2, 2, 76, 1, 0]],
    [(0, 0), (1, 1), (2, 2), (3, 3)], 1, none, 5, 1, (0, 0),
    ⟨(1, 1), [[1]], 0, none⟩⟩

/-- Witness for C9: flushing `witnessAnim` (speed 1, one change) emits
exactly one frame and resets the maze's counter and box. -/
theorem C9_flush_one_frame_witness :
    (∃ f, witnessAnimFlushed.written = witnessAnim.written ++ [f]) ∧
      witnessAnimFlushed.maze.num_changes = 0 ∧
      witnessAnimFlushed.maze.frame_box = none :=
  (C9_flush_one_frame witnessAnim).1 witnessAnimFlushed (by decide) (by decide)

/-- A successful lookup in the initial table identifies the key as a
single-symbol tuple of the alphabet. -/
theorem tblLookup_initTable_some {σ : Type} [DecidableEq σ] (mcl : Nat)
    (base : Nat → σ) (k : List σ)
    (h : (tblLookup (initTable mcl base) k).isSome) :
    ∃ i, i < 2 ^ mcl ∧ k = [base i] := by
  unfold tblLookup at h
  cases hf : (initTable mcl base).find? (fun e => decide (e.1 = k)) with
  | none =>
    rw [hf] at h
    simp at h
  | some e =>
    have hmem := List.mem_of_find?_eq_some hf
    have hpk := List.find?_some hf
    unfold initTable at hmem
    simp only [List.mem_map, List.mem_range] at hmem
    obtain ⟨i, hi, he⟩ := hmem
    rw [one_shiftLeft_eq] at hi
    refine ⟨i, hi, ?_⟩
    rw [← he] at hpk
    simp only [decide_eq_true_eq] at hpk
    exact hpk.symm

/-- The table extended by a nonempty pattern still has no entry for the
empty pattern. -/
theorem tblLookup_nil_append {σ : Type} [DecidableEq σ] (mcl : Nat)
    (base : Nat → σ) (entry : List σ × Nat) (hne : entry.1 ≠ []) :
    tblLookup (initTable mcl base ++ [entry]) [] = none := by
  unfold tblLookup
  rw [List.find?_eq_none.mpr]
  · rfl
  · intro x hx
    rcases List.mem_append.mp hx with hx | hx
    · unfold initTable at hx
      simp only [List.mem_map, List.mem_range] at hx
      obtain ⟨i, _, hi⟩ := hx
      rw [← hi]
      simp
    · rw [List.mem_singleton] at hx
      subst hx
      simpa using hne

/-- Feeding the loop a single symbol outside the alphabet makes it raise:
the miss path looks up `pattern[:-1] = ()` which is never a key. -/
theorem lzwProcess_single_none {σ : Type} [DecidableEq σ] (mcl : Nat)
    (base : Nat → σ) (s : σ)
    (hmiss : tblLookup (initTable mcl base) [s] = none) :
    lzwProcess mcl base (initLZWState mcl base) [] [s] = none := by
  rw [lzwProcess]
  have hps : processSymbol mcl base (initLZWState mcl base) [] s = none := by
    unfold processSymbol
    rw [show (initLZWState mcl base).codeTable = initTable mcl base from rfl]
    simp only [List.nil_append]
    rw [if_neg (by rw [hmiss]; simp)]
    rw [List.dropLast_single]
    rw [tblLookup_nil_append mcl base ([s], (initLZWState mcl base).nextCode) (by simp)]
  rw [hps]

/-- A successful single-symbol compression forces the symbol to be in the
alphabet `{base i | i < 2^min_code_length}`. -/
theorem compressionCall_single {σ : Type} [DecidableEq σ] (mcl : Nat)
    (base : Nat → σ) (s : σ) (out : List Nat)
    (h : compressionCall mcl base [s] = some out) :
    ∃ i, i < 2 ^ mcl ∧ s = base i := by
  by_cases hhit : (tblLookup (initTable mcl base) [s]).isSome
  · obtain ⟨i, hi, hk⟩ := tblLookup_initTable_some mcl base [s] hhit
    simp only [List.cons.injEq, and_true] at hk
    exact ⟨i, hi, hk⟩
  · exfalso
    have hnone : tblLookup (initTable mcl base) [s] = none :=
      Option.not_isSome_iff_eq_none.mp hhit
    have hproc := lzwProcess_single_none mcl base s hnone
    unfold compressionCall compressionRun at h
    rw [hproc] at h
    exact Option.noConfusion h

/-- Claim C10: `pad_delay_frame` with the default `trans_index = None` does
not emit a frame — the compressor is applied to `[None]` and fails (`None`
is not a symbol of the code table) — and a successful `pad_delay_frame`
forces `trans_index` to be a symbol in `[0, 2^min_code_length)`. -/
theorem C10_pad_delay_transparent (a : Animation) (delay : Nat) :
    (a.trans_index = none → pad_delay_frame a delay = none) ∧
    (∀ a2, pad_delay_frame a delay = some a2 →
      ∃ k : Int, a.trans_index = some k ∧ 0 ≤ k ∧ k < 2 ^ a.mcl) := by
  constructor
  · intro hnone
    unfold pad_delay_frame
    rw [hnone]
    cases hc : graphics_control_block delay none with
    | none => rfl
    | some control =>
      simp only [hc]
      have hd : image_descriptor 0 0 1 1 = some [0x2C, 0, 0, 0, 0, 1, 0, 1, 0, 0] := by
        decide
      simp only [hd]
      have hmiss : tblLookup
          (initTable a.mcl (fun i => (some (i : Int) : Option Int)))
          [(none : Option Int)] = none := by
        unfold tblLookup
        rw [List.find?_eq_none.mpr]
        · rfl
        · intro e he
          unfold initTable at he
          simp only [List.mem_map, List.mem_range] at he
          obtain ⟨i, _, hei⟩ := he
          rw [← hei]
          simp
      have hproc := lzwProcess_single_none a.mcl
        (fun i => (some (i : Int) : Option Int)) none hmiss
      have hcc : compressionCall a.mcl (fun i => (some (i : Int) : Option Int))
          [(none : Option Int)] = none := by
        unfold compressionCall compressionRun
        rw [hproc]
      simp only [hcc]
  · intro a2 h
    unfold pad_delay_frame at h
    cases hc : graphics_control_block delay a.trans_index with
    | none =>
      rw [hc] at h
      exact Option.noConfusion h
    | some control =>
      simp only [hc] at h
      cases hd : image_descriptor 0 0 1 1 with
      | none =>
        rw [hd] at h
        exact Option.noConfusion h
      | some d =>
        simp only [hd] at h
        cases hz : compressionCall a.mcl (fun i => (some (i : Int) : Option Int))
            [a.trans_index] with
        | none =>
          rw [hz] at h
          exact Option.noConfusion h
        | some data =>
          obtain ⟨i, hi, hs⟩ :=
            compressionCall_single a.mcl (fun i => (some (i : Int) : Option Int))
              a.trans_index data hz
          refine ⟨(i : Int), by rw [hs], by exact_mod_cast Nat.zero_le i, ?_⟩
          exact_mod_cast hi

/-- `witnessAnim` with a valid transparent index, after `pad_delay_frame 5`. -/
def witnessAnimPadded : Animation :=
  ⟨2, [[33, 249, 4, 5, 5, 0, 1, 0, 44, 0, 0, 0, 0, 1, 0, 1, 0, 0, 2, 2, 76, 1, 0]],
    [(0, 0), (1, 1), (2, 2), (3, 3)], 1, some 1, 5, 1, (0, 0),
    ⟨(1, 1), [[1]], 1, some (0, 0, 0, 0)⟩⟩

/-- Witness for C10: with `trans_index = None` the pad frame fails; with
`trans_index = 1` (valid for `min_code_length = 2`) it succeeds and the
index is confirmed to lie in `[0, 4)`. -/
theorem C10_pad_delay_transparent_witness :
    pad_delay_frame witnessAnim 5 = none ∧
    ∃ k : Int, ({ witnessAnim with trans_index := some 1 } : Animation).trans_index
        = some k ∧ 0 ≤ k ∧
        k < 2 ^ ({ witnessAnim with trans_index := some 1 } : Animation).mcl :=
  ⟨(C10_pad_delay_transparent witnessAnim 5).1 rfl,
   (C10_pad_delay_transparent { witnessAnim with trans_index := some 1 } 5).2
     witnessAnimPadded (by decide)⟩
